import Mathlib

/-!
Verification of the pdf-shape core: a shallow embedding of the generic
trait implementations of `src/traits.rs` together with the aggregate
coordinate accessors of `src/raw_document/mod.rs`, and proofs of the
behavioural properties stated for them.

Rust `f32` values are modelled as rationals: every arithmetic step the
library performs on coordinates (comparison, addition, subtraction,
halving, rounding to an integer) is mirrored exactly on `ℚ`, and the
library compares coordinates with exact equality, never with a tolerance.

The blanket implementations of the library are generic in any element
type exposing the trait methods; they are embedded here as functions over
lists of `Obj`, where `Obj` records exactly the trait-level view of one
element (coordinates, shape, optional style attributes).
-/

namespace PdfShape

/-- The trait-level view of a positioned object: the values returned by
the `Coordinates`, `Shape` and `Style` methods of one element.  A leaf
token returns `some` for every optional field; a nested aggregate may
return `none`, which is why the optional fields are `Option`-valued. -/
structure Obj where
  x : ℚ
  y : ℚ
  base : ℚ
  width : ℚ
  height : ℚ
  rotation : Option ℚ
  angle : Option ℚ
  font_size : Option ℚ
  bold : Option Bool
  italic : Option Bool
  deriving DecidableEq

/-- All possible alignements between a set of objects; the constructor
names (spelling included) follow `ObjectAlignement` in `src/traits.rs`. -/
inductive ObjectAlignement where
  | Alinged
  | HorizontalAligned
  | HorizontalCenterAligned
  | VerticalLeftAligned
  | VerticalCenterAlgined
  | VerticalRightAlgined
  | NonAligned
  deriving DecidableEq

/-- The loop shared by the aggregate `font_size`, `bold` and `italic` of
`impl Style for OBJECTSET`: a running last-seen value starts out absent,
an element seen while it is absent installs its own value, and once a
value is present any later element whose value differs short-circuits the
whole aggregate to `none`. -/
def unanimous_loop {α : Type} [DecidableEq α] (f : Obj → Option α) :
    List Obj → Option α → Option α
  | [], last => last
  | object :: objects, last =>
    match last with
    | some _ => if f object ≠ last then none else unanimous_loop f objects last
    | none => unanimous_loop f objects (f object)

/-- Aggregate `font_size` of `impl Style for OBJECTSET` in `src/traits.rs`. -/
def font_size (objects : List Obj) : Option ℚ :=
  unanimous_loop (fun object => object.font_size) objects none

/-- Aggregate `bold` of `impl Style for OBJECTSET` in `src/traits.rs`. -/
def bold (objects : List Obj) : Option Bool :=
  unanimous_loop (fun object => object.bold) objects none

/-- Aggregate `italic` of `impl Style for OBJECTSET` in `src/traits.rs`. -/
def italic (objects : List Obj) : Option Bool :=
  unanimous_loop (fun object => object.italic) objects none

/-- Rust `Iterator::all` over a list-backed iterator: it consumes elements
until the first failure and returns whether all elements passed together
with the elements still left in the iterator afterwards (none when all
passed, the suffix after the failing element otherwise).  The aggregate
`avg_font_size` calls `all` on the very iterator it then feeds to the
mean, so this consumption is observable there. -/
def iterator_all {α : Type} (p : α → Bool) : List α → Bool × List α
  | [] => (true, [])
  | a :: rest => if p a then iterator_all p rest else (false, rest)

/-- Modelled from the spec: `stats::mean` of the external stats crate is
the arithmetic mean of a stream of values, and the crate returns `0.0`
for an empty stream (its running mean starts at zero). -/
def mean (values : List ℚ) : ℚ :=
  if values = [] then 0 else values.sum / values.length

/-- Aggregate `avg_font_size` of `impl Style for OBJECTSET` in
`src/traits.rs`.  The Rust code first runs `o.all(|object| object.is_some())`
on the iterator `o` of font sizes and then computes
`stats::mean(o.flat_map(|object| object))` on the same iterator: `all`
has already consumed every element when it returns `true`, so the mean
only ever sees the elements left over by `all`. -/
def avg_font_size (objects : List Obj) : Option ℚ :=
  let o := objects.map fun object => object.font_size
  let all_known := iterator_all Option.isSome o
  if all_known.1 then some (mean (all_known.2.filterMap id)) else none

/-- Aggregate `width` of `impl Shape for OBJECTSET` in `src/traits.rs`:
collect `(x, width)` pairs, sort them by `x` and take the first pair for
the lower bound, then sort the sums `x + width` and take the last for the
upper bound.  `Vec::sort_by` is a stable sort under a total comparison,
which determines its output uniquely, so Mathlib insertion sort computes
the same list of keys. -/
def width (tokens : List Obj) : ℚ :=
  let widths :=
    List.insertionSort (fun a b => a.1 ≤ b.1)
      (tokens.map fun token => (token.x, token.width))
  let lower_bound := match widths.head? with | some token => token.1 | none => 0
  let sums := List.insertionSort (· ≤ ·) (widths.map fun p => p.1 + p.2)
  let upper_bound := match sums.getLast? with | some w => w | none => 0
  upper_bound - lower_bound

/-- Aggregate `height` of `impl Shape for OBJECTSET` in `src/traits.rs`:
collect `(y, height)` pairs, sort them by `y` and take the last pair for
the upper bound, then sort the differences `y - height` and take the
first for the lower bound. -/
def height (tokens : List Obj) : ℚ :=
  let heights :=
    List.insertionSort (fun a b => a.1 ≤ b.1)
      (tokens.map fun token => (token.y, token.height))
  let upper_bound := match heights.getLast? with | some token => token.1 | none => 0
  let diffs := List.insertionSort (· ≤ ·) (heights.map fun p => p.1 - p.2)
  let lower_bound := match diffs.head? with | some h => h | none => 0
  upper_bound - lower_bound

/-- Aggregate `rotation` of `impl Shape for OBJECTSET`: always `None`. -/
def rotation (_ : List Obj) : Option ℚ := none

/-- Aggregate `angle` of `impl Shape for OBJECTSET`: always `None`. -/
def angle (_ : List Obj) : Option ℚ := none

/-- The `alignement` method of the `Alignement` trait in `src/traits.rs`:
six checks tried in order, each requiring its condition of every element
of `others`, with exact equality of coordinates. -/
def alignement (self : Obj) (others : List Obj) : ObjectAlignement :=
  if others.all fun elem => decide (elem.y = self.y) then
    ObjectAlignement.HorizontalAligned
  else if others.all fun elem =>
      decide (elem.height / 2 + elem.y = self.height / 2 + self.y) then
    ObjectAlignement.HorizontalCenterAligned
  else if others.all fun elem => decide (elem.x = self.x) then
    ObjectAlignement.VerticalLeftAligned
  else if others.all fun elem =>
      decide (elem.width / 2 + elem.x = self.width / 2 + self.x) then
    ObjectAlignement.VerticalCenterAlgined
  else if others.all fun elem =>
      decide (elem.width + elem.x = self.width + self.x) then
    ObjectAlignement.VerticalRightAlgined
  else if others.all fun elem =>
      decide (elem.y = self.y) && decide (elem.x = self.x) then
    ObjectAlignement.Alinged
  else
    ObjectAlignement.NonAligned

/-- The scanning loop of `vertical_spacing` of `impl Spacing for OBJECTSET`
in `src/traits.rs`: for each consecutive pair, a pair on the same line
(HorizontalAligned or HorizontalCenterAligned) records nothing, otherwise
`next.y - current.base` is pushed when `current.base` is positive and
exceeds the last pushed value (zero when nothing was pushed yet). -/
def vertical_spacing_scan : List Obj → List ℚ → List ℚ
  | current :: next :: rest, acc =>
    let spacing := current.base
    let last_spacing := acc.getLast?.getD 0
    match alignement current [next] with
    | ObjectAlignement.HorizontalAligned =>
        vertical_spacing_scan (next :: rest) acc
    | ObjectAlignement.HorizontalCenterAligned =>
        vertical_spacing_scan (next :: rest) acc
    | _ =>
        if spacing > 0 ∧ spacing > last_spacing then
          vertical_spacing_scan (next :: rest) (acc ++ [next.y - spacing])
        else
          vertical_spacing_scan (next :: rest) acc
  | _, acc => acc

/-- `vertical_spacing` of `impl Spacing for OBJECTSET`: the scan above,
followed by the final filter removing every value that is not positive. -/
def vertical_spacing (tokens : List Obj) : List ℚ :=
  (vertical_spacing_scan tokens []).filter fun spacing => decide (spacing > 0)

/-- The scanning loop of `horizontal_spacing` of `impl Spacing for
OBJECTSET` in `src/traits.rs`: for each consecutive pair on the same line
(HorizontalAligned or HorizontalCenterAligned), with
`spacing = current.x + current.width` positive and exceeding the last
pushed value, `next.x - spacing` is pushed. -/
def horizontal_spacing_scan : List Obj → List ℚ → List ℚ
  | current :: next :: rest, acc =>
    let spacing := current.x + current.width
    let last_spacing := acc.getLast?.getD 0
    if (alignement current [next] = ObjectAlignement.HorizontalAligned ∨
        alignement current [next] = ObjectAlignement.HorizontalCenterAligned) ∧
        spacing > 0 ∧ spacing > last_spacing then
      horizontal_spacing_scan (next :: rest) (acc ++ [next.x - spacing])
    else
      horizontal_spacing_scan (next :: rest) acc
  | _, acc => acc

/-- `horizontal_spacing` of `impl Spacing for OBJECTSET`: the scan above,
followed by the final filter removing every value that is not positive. -/
def horizontal_spacing (tokens : List Obj) : List ℚ :=
  (horizontal_spacing_scan tokens []).filter fun spacing => decide (spacing > 0)

/-- Modelled from the spec: `stats::mode` of the external stats crate
returns the single most frequent value of a stream, and returns `none`
when the stream is empty, when no value repeats, or when no single value
is strictly more frequent than every other. -/
def mode (values : List ℚ) : Option ℚ :=
  values.find? fun x =>
    decide (2 ≤ values.count x) &&
      values.all fun y => decide (y = x) || decide (values.count y < values.count x)

/-- Rust `f32::round`: round half away from zero. -/
def roundHalfAway (x : ℚ) : ℚ :=
  if 0 ≤ x then ((⌊x + 1 / 2⌋ : ℤ) : ℚ) else ((⌈x - 1 / 2⌉ : ℤ) : ℚ)

/-- `mode_vertical_spacing` of `impl Spacing for OBJECTSET`: the mode of
the rounded vertical spacing values. -/
def mode_vertical_spacing (tokens : List Obj) : Option ℚ :=
  mode ((vertical_spacing tokens).map fun value => roundHalfAway value)

/-- `mode_horizontal_spacing` of `impl Spacing for OBJECTSET`: the mode of
the rounded horizontal spacing values. -/
def mode_horizontal_spacing (tokens : List Obj) : Option ℚ :=
  mode ((horizontal_spacing tokens).map fun value => roundHalfAway value)

/-- Aggregate `x` of `impl Coordinates for Tokens` in
`src/raw_document/mod.rs`: the first member, or zero. -/
def Tokens.x (tokens : List Obj) : ℚ :=
  match tokens.head? with
  | some first_token => first_token.x
  | none => 0

/-- Aggregate `y` of `impl Coordinates for Tokens` in
`src/raw_document/mod.rs`: the first member, or zero. -/
def Tokens.y (tokens : List Obj) : ℚ :=
  match tokens.head? with
  | some first_token => first_token.y
  | none => 0

/-- First-match selection over an ordered list of tested categories: the
category of the first test that holds, `NonAligned` when none does. -/
def firstMatch : List (Bool × ObjectAlignement) → ObjectAlignement
  | [] => ObjectAlignement.NonAligned
  | (cond, category) :: rest => if cond then category else firstMatch rest

/-- Claim-side definition for C5, following the claim words: the seven
categories are tested in the fixed priority order HorizontalAligned,
HorizontalCenterAligned, VerticalLeftAligned, VerticalCenterAligned,
VerticalRightAligned, Aligned, NonAligned, each condition compared with
exact equality, and the first category whose condition holds of all
members is returned. -/
def alignementClaim (R : Obj) (others : List Obj) : ObjectAlignement :=
  firstMatch
    [ (others.all fun e => decide (e.y = R.y),
        ObjectAlignement.HorizontalAligned),
      (others.all fun e => decide (e.y + e.height / 2 = R.y + R.height / 2),
        ObjectAlignement.HorizontalCenterAligned),
      (others.all fun e => decide (e.x = R.x),
        ObjectAlignement.VerticalLeftAligned),
      (others.all fun e => decide (e.x + e.width / 2 = R.x + R.width / 2),
        ObjectAlignement.VerticalCenterAlgined),
      (others.all fun e => decide (e.x + e.width = R.x + R.width),
        ObjectAlignement.VerticalRightAlgined),
      (others.all fun e => decide (e.x = R.x) && decide (e.y = R.y),
        ObjectAlignement.Alinged) ]

/-- Claim-side scan for C7, following the claim words: consecutive pairs
are visited in order; a pair classified HorizontalAligned or
HorizontalCenterAligned contributes no entry; otherwise the value
`next.y - current.base` is appended exactly when `current.base` is
positive and exceeds the last appended value. -/
def vertical_spacing_claim_scan : List Obj → List ℚ → List ℚ
  | current :: next :: rest, acc =>
    if alignement current [next] = ObjectAlignement.HorizontalAligned ∨
        alignement current [next] = ObjectAlignement.HorizontalCenterAligned then
      vertical_spacing_claim_scan (next :: rest) acc
    else if 0 < current.base ∧ acc.getLast?.getD 0 < current.base then
      vertical_spacing_claim_scan (next :: rest) (acc ++ [next.y - current.base])
    else
      vertical_spacing_claim_scan (next :: rest) acc
  | _, acc => acc

/-- Claim-side vertical spacing for C7: the scan above with all values
that are not strictly positive dropped afterwards. -/
def vertical_spacing_claim (tokens : List Obj) : List ℚ :=
  (vertical_spacing_claim_scan tokens []).filter fun v => decide (0 < v)

/-- Claim-side scan for C8, following the claim words: for each
consecutive pair classified HorizontalAligned or HorizontalCenterAligned
whose value `spacing = current.x + current.width` is positive and exceeds
the last recorded value, the entry `next.x - spacing` is recorded. -/
def horizontal_spacing_claim_scan : List Obj → List ℚ → List ℚ
  | current :: next :: rest, acc =>
    if (alignement current [next] = ObjectAlignement.HorizontalAligned ∨
        alignement current [next] = ObjectAlignement.HorizontalCenterAligned) ∧
        0 < current.x + current.width ∧
        acc.getLast?.getD 0 < current.x + current.width then
      horizontal_spacing_claim_scan (next :: rest)
        (acc ++ [next.x - (current.x + current.width)])
    else
      horizontal_spacing_claim_scan (next :: rest) acc
  | _, acc => acc

/-- Claim-side horizontal spacing for C8: the scan above with all entries
that are not strictly positive dropped afterwards. -/
def horizontal_spacing_claim (tokens : List Obj) : List ℚ :=
  (horizontal_spacing_claim_scan tokens []).filter fun v => decide (0 < v)

/-- Minimum of a list of rationals, zero for the empty list. -/
def minQ : List ℚ → ℚ
  | [] => 0
  | [a] => a
  | a :: b :: rest => min a (minQ (b :: rest))

/-- Maximum of a list of rationals, zero for the empty list. -/
def maxQ : List ℚ → ℚ
  | [] => 0
  | [a] => a
  | a :: b :: rest => max a (maxQ (b :: rest))

theorem minQ_mem : ∀ (l : List ℚ), l ≠ [] → minQ l ∈ l := by
  intro l
  induction l with
  | nil => intro h; exact absurd rfl h
  | cons a t ih =>
    intro _
    cases t with
    | nil => simp [minQ]
    | cons b r =>
      rcases min_choice a (minQ (b :: r)) with h1 | h1
      · simp [minQ, h1]
      · rw [show minQ (a :: b :: r) = min a (minQ (b :: r)) from rfl, h1]
        exact List.mem_cons_of_mem a (ih (by simp))

theorem minQ_le : ∀ (l : List ℚ), ∀ x ∈ l, minQ l ≤ x := by
  intro l
  induction l with
  | nil => intro x hx; simp at hx
  | cons a t ih =>
    intro x hx
    cases t with
    | nil =>
      rw [List.mem_singleton.mp hx]
      exact le_of_eq rfl
    | cons b r =>
      rcases List.mem_cons.mp hx with rfl | hx2
      · exact min_le_left _ _
      · exact le_trans (min_le_right _ _) (ih x hx2)

theorem maxQ_mem : ∀ (l : List ℚ), l ≠ [] → maxQ l ∈ l := by
  intro l
  induction l with
  | nil => intro h; exact absurd rfl h
  | cons a t ih =>
    intro _
    cases t with
    | nil => simp [maxQ]
    | cons b r =>
      rcases max_choice a (maxQ (b :: r)) with h1 | h1
      · simp [maxQ, h1]
      · rw [show maxQ (a :: b :: r) = max a (maxQ (b :: r)) from rfl, h1]
        exact List.mem_cons_of_mem a (ih (by simp))

theorem le_maxQ : ∀ (l : List ℚ), ∀ x ∈ l, x ≤ maxQ l := by
  intro l
  induction l with
  | nil => intro x hx; simp at hx
  | cons a t ih =>
    intro x hx
    cases t with
    | nil =>
      rw [List.mem_singleton.mp hx]
      exact le_of_eq rfl
    | cons b r =>
      rcases List.mem_cons.mp hx with rfl | hx2
      · exact le_max_left _ _
      · exact le_trans (ih x hx2) (le_max_right _ _)

theorem minQ_eq (l : List ℚ) (m : ℚ) (hm : m ∈ l) (hb : ∀ x ∈ l, m ≤ x) :
    minQ l = m := by
  have hne : l ≠ [] := by intro h; rw [h] at hm; simp at hm
  exact le_antisymm (minQ_le l m hm) (hb _ (minQ_mem l hne))

theorem maxQ_eq (l : List ℚ) (m : ℚ) (hm : m ∈ l) (hb : ∀ x ∈ l, x ≤ m) :
    maxQ l = m := by
  have hne : l ≠ [] := by intro h; rw [h] at hm; simp at hm
  exact le_antisymm (hb _ (maxQ_mem l hne)) (le_maxQ l m hm)

theorem sorted_head_min {α : Type} (κ : α → ℚ) (l : List α)
    (hs : List.Sorted (fun a b => κ a ≤ κ b) l) (h : l ≠ []) :
    ∃ t, l.head? = some t ∧ t ∈ l ∧ ∀ x ∈ l, κ t ≤ κ x := by
  cases l with
  | nil => exact absurd rfl h
  | cons a rest =>
    refine ⟨a, rfl, List.mem_cons_self a rest, ?_⟩
    intro x hx
    rcases List.mem_cons.mp hx with rfl | hx2
    · exact le_refl _
    · exact (List.sorted_cons.mp hs).1 x hx2

theorem sorted_getLast_max {α : Type} (κ : α → ℚ) :
    ∀ (l : List α), List.Sorted (fun a b => κ a ≤ κ b) l → l ≠ [] →
      ∃ t, l.getLast? = some t ∧ t ∈ l ∧ ∀ x ∈ l, κ x ≤ κ t := by
  intro l
  induction l with
  | nil => intro _ h; exact absurd rfl h
  | cons a rest ih =>
    intro hs _
    cases rest with
    | nil => exact ⟨a, rfl, by simp, by simp⟩
    | cons b r =>
      obtain ⟨t, ht1, ht2, ht3⟩ := ih (List.sorted_cons.mp hs).2 (by simp)
      refine ⟨t, ?_, List.mem_cons_of_mem a ht2, ?_⟩
      · rw [List.getLast?_cons_cons]; exact ht1
      · intro x hx
        rcases List.mem_cons.mp hx with rfl | hx2
        · exact (List.sorted_cons.mp hs).1 t ht2
        · exact ht3 x hx2

instance : IsTotal (ℚ × ℚ) fun a b => a.1 ≤ b.1 :=
  ⟨fun a b => le_total a.1 b.1⟩

instance : IsTrans (ℚ × ℚ) fun a b => a.1 ≤ b.1 :=
  ⟨fun _ _ _ hab hbc => le_trans hab hbc⟩

theorem width_eq (l : List Obj) (h : l ≠ []) :
    width l = maxQ (l.map fun t => t.x + t.width) - minQ (l.map fun t => t.x) := by
  have hpairs_ne : (l.map fun token => (token.x, token.width)) ≠ [] := by
    simpa using h
  have hperm :
      (List.insertionSort (fun a b => a.1 ≤ b.1)
          (l.map fun token => (token.x, token.width))).Perm
        (l.map fun token => (token.x, token.width)) :=
    List.perm_insertionSort _ _
  have hs_ne :
      List.insertionSort (fun a b => a.1 ≤ b.1)
        (l.map fun token => (token.x, token.width)) ≠ [] := by
    intro h0
    apply hpairs_ne
    have hnil : ([] : List (ℚ × ℚ)).Perm (l.map fun token => (token.x, token.width)) :=
      h0 ▸ hperm
    exact hnil.symm.eq_nil
  obtain ⟨t, hhead, htmem, htmin⟩ :=
    sorted_head_min Prod.fst _ (List.sorted_insertionSort _ _) hs_ne
  have hsums_perm :
      (List.insertionSort (· ≤ ·)
          ((List.insertionSort (fun a b => a.1 ≤ b.1)
              (l.map fun token => (token.x, token.width))).map
            fun p => p.1 + p.2)).Perm
        ((List.insertionSort (fun a b => a.1 ≤ b.1)
            (l.map fun token => (token.x, token.width))).map
          fun p => p.1 + p.2) :=
    List.perm_insertionSort _ _
  have hsums_ne :
      List.insertionSort (· ≤ ·)
        ((List.insertionSort (fun a b => a.1 ≤ b.1)
            (l.map fun token => (token.x, token.width))).map
          fun p => p.1 + p.2) ≠ [] := by
    intro h0
    have := (List.Perm.eq_nil (h0 ▸ hsums_perm).symm)
    simp only [List.map_eq_nil_iff] at this
    exact hs_ne this
  obtain ⟨v, hlast, hvmem, hvmax⟩ :=
    sorted_getLast_max (fun q => q) _
      (by exact List.sorted_insertionSort (· ≤ ·) _) hsums_ne
  have hmin : minQ (l.map fun t => t.x) = t.1 := by
    apply minQ_eq
    · have ht2 : t ∈ l.map fun token => (token.x, token.width) :=
        hperm.mem_iff.mp htmem
      obtain ⟨o, ho, he⟩ := List.mem_map.mp ht2
      have : t.1 = o.x := by rw [← he]
      rw [this]
      exact List.mem_map_of_mem _ ho
    · intro w hw
      obtain ⟨m, hm, he⟩ := List.mem_map.mp hw
      have hmem2 : (m.x, m.width) ∈
          List.insertionSort (fun a b => a.1 ≤ b.1)
            (l.map fun token => (token.x, token.width)) :=
        hperm.mem_iff.mpr (List.mem_map_of_mem _ hm)
      have := htmin _ hmem2
      rw [← he]
      exact this
  have hmax : maxQ (l.map fun t => t.x + t.width) = v := by
    apply maxQ_eq
    · have hv2 : v ∈
          (List.insertionSort (fun a b => a.1 ≤ b.1)
              (l.map fun token => (token.x, token.width))).map
            fun p => p.1 + p.2 :=
        hsums_perm.mem_iff.mp hvmem
      obtain ⟨p, hp, he⟩ := List.mem_map.mp hv2
      have hp2 : p ∈ l.map fun token => (token.x, token.width) :=
        hperm.mem_iff.mp hp
      obtain ⟨o, ho, he2⟩ := List.mem_map.mp hp2
      have : v = o.x + o.width := by rw [← he, ← he2]
      rw [this]
      exact List.mem_map_of_mem _ ho
    · intro w hw
      obtain ⟨m, hm, he⟩ := List.mem_map.mp hw
      have hmem2 : (m.x, m.width) ∈
          List.insertionSort (fun a b => a.1 ≤ b.1)
            (l.map fun token => (token.x, token.width)) :=
        hperm.mem_iff.mpr (List.mem_map_of_mem _ hm)
      have hmem3 : m.x + m.width ∈
          (List.insertionSort (fun a b => a.1 ≤ b.1)
              (l.map fun token => (token.x, token.width))).map
            fun p => p.1 + p.2 :=
        List.mem_map.mpr ⟨(m.x, m.width), hmem2, rfl⟩
      have := hvmax _ (hsums_perm.mem_iff.mpr hmem3)
      rw [← he]
      exact this
  simp only [width]
  rw [hhead, hlast, hmin, hmax]

theorem height_eq (l : List Obj) (h : l ≠ []) :
    height l = maxQ (l.map fun t => t.y) - minQ (l.map fun t => t.y - t.height) := by
  have hpairs_ne : (l.map fun token => (token.y, token.height)) ≠ [] := by
    simpa using h
  have hperm :
      (List.insertionSort (fun a b => a.1 ≤ b.1)
          (l.map fun token => (token.y, token.height))).Perm
        (l.map fun token => (token.y, token.height)) :=
    List.perm_insertionSort _ _
  have hs_ne :
      List.insertionSort (fun a b => a.1 ≤ b.1)
        (l.map fun token => (token.y, token.height)) ≠ [] := by
    intro h0
    apply hpairs_ne
    have hnil : ([] : List (ℚ × ℚ)).Perm (l.map fun token => (token.y, token.height)) :=
      h0 ▸ hperm
    exact hnil.symm.eq_nil
  obtain ⟨t, hlastp, htmem, htmax⟩ :=
    sorted_getLast_max Prod.fst _ (List.sorted_insertionSort _ _) hs_ne
  have hdiffs_perm :
      (List.insertionSort (· ≤ ·)
          ((List.insertionSort (fun a b => a.1 ≤ b.1)
              (l.map fun token => (token.y, token.height))).map
            fun p => p.1 - p.2)).Perm
        ((List.insertionSort (fun a b => a.1 ≤ b.1)
            (l.map fun token => (token.y, token.height))).map
          fun p => p.1 - p.2) :=
    List.perm_insertionSort _ _
  have hdiffs_ne :
      List.insertionSort (· ≤ ·)
        ((List.insertionSort (fun a b => a.1 ≤ b.1)
            (l.map fun token => (token.y, token.height))).map
          fun p => p.1 - p.2) ≠ [] := by
    intro h0
    have := (List.Perm.eq_nil (h0 ▸ hdiffs_perm).symm)
    simp only [List.map_eq_nil_iff] at this
    exact hs_ne this
  obtain ⟨v, hheadd, hvmem, hvmin⟩ :=
    sorted_head_min (fun q => q) _
      (by exact List.sorted_insertionSort (· ≤ ·) _) hdiffs_ne
  have hmax : maxQ (l.map fun t => t.y) = t.1 := by
    apply maxQ_eq
    · have ht2 : t ∈ l.map fun token => (token.y, token.height) :=
        hperm.mem_iff.mp htmem
      obtain ⟨o, ho, he⟩ := List.mem_map.mp ht2
      have : t.1 = o.y := by rw [← he]
      rw [this]
      exact List.mem_map_of_mem _ ho
    · intro w hw
      obtain ⟨m, hm, he⟩ := List.mem_map.mp hw
      have hmem2 : (m.y, m.height) ∈
          List.insertionSort (fun a b => a.1 ≤ b.1)
            (l.map fun token => (token.y, token.height)) :=
        hperm.mem_iff.mpr (List.mem_map_of_mem _ hm)
      have := htmax _ hmem2
      rw [← he]
      exact this
  have hmin : minQ (l.map fun t => t.y - t.height) = v := by
    apply minQ_eq
    · have hv2 : v ∈
          (List.insertionSort (fun a b => a.1 ≤ b.1)
              (l.map fun token => (token.y, token.height))).map
            fun p => p.1 - p.2 :=
        hdiffs_perm.mem_iff.mp hvmem
      obtain ⟨p, hp, he⟩ := List.mem_map.mp hv2
      have hp2 : p ∈ l.map fun token => (token.y, token.height) :=
        hperm.mem_iff.mp hp
      obtain ⟨o, ho, he2⟩ := List.mem_map.mp hp2
      have : v = o.y - o.height := by rw [← he, ← he2]
      rw [this]
      exact List.mem_map_of_mem _ ho
    · intro w hw
      obtain ⟨m, hm, he⟩ := List.mem_map.mp hw
      have hmem2 : (m.y, m.height) ∈
          List.insertionSort (fun a b => a.1 ≤ b.1)
            (l.map fun token => (token.y, token.height)) :=
        hperm.mem_iff.mpr (List.mem_map_of_mem _ hm)
      have hmem3 : m.y - m.height ∈
          (List.insertionSort (fun a b => a.1 ≤ b.1)
              (l.map fun token => (token.y, token.height))).map
            fun p => p.1 - p.2 :=
        List.mem_map.mpr ⟨(m.y, m.height), hmem2, rfl⟩
      have := hvmin _ (hdiffs_perm.mem_iff.mpr hmem3)
      rw [← he]
      exact this
  simp only [height]
  rw [hlastp, hheadd, hmax, hmin]

theorem all_center_y_comm (R : Obj) (others : List Obj) :
    (others.all fun e => decide (e.y + e.height / 2 = R.y + R.height / 2))
      = (others.all fun e => decide (e.height / 2 + e.y = R.height / 2 + R.y)) := by
  induction others with
  | nil => rfl
  | cons a t ih =>
    simp only [List.all_cons, ih]
    congr 1
    rw [decide_eq_decide]
    constructor <;> intro hq <;> linarith

theorem all_center_x_comm (R : Obj) (others : List Obj) :
    (others.all fun e => decide (e.x + e.width / 2 = R.x + R.width / 2))
      = (others.all fun e => decide (e.width / 2 + e.x = R.width / 2 + R.x)) := by
  induction others with
  | nil => rfl
  | cons a t ih =>
    simp only [List.all_cons, ih]
    congr 1
    rw [decide_eq_decide]
    constructor <;> intro hq <;> linarith

theorem all_right_comm (R : Obj) (others : List Obj) :
    (others.all fun e => decide (e.x + e.width = R.x + R.width))
      = (others.all fun e => decide (e.width + e.x = R.width + R.x)) := by
  induction others with
  | nil => rfl
  | cons a t ih =>
    simp only [List.all_cons, ih]
    congr 1
    rw [decide_eq_decide]
    constructor <;> intro hq <;> linarith

theorem all_xy_comm (R : Obj) (others : List Obj) :
    (others.all fun e => decide (e.x = R.x) && decide (e.y = R.y))
      = (others.all fun e => decide (e.y = R.y) && decide (e.x = R.x)) := by
  induction others with
  | nil => rfl
  | cons a t ih =>
    simp only [List.all_cons, ih]
    congr 1
    exact Bool.and_comm _ _

theorem vertical_scan_eq : ∀ (l : List Obj) (acc : List ℚ),
    vertical_spacing_scan l acc = vertical_spacing_claim_scan l acc := by
  intro l
  induction l with
  | nil => intro acc; rfl
  | cons a t ih =>
    cases t with
    | nil => intro acc; rfl
    | cons b r =>
      intro acc
      cases halign : alignement a [b] <;>
        simp only [vertical_spacing_scan, vertical_spacing_claim_scan, halign,
          gt_iff_lt, reduceCtorEq, or_self, or_false, false_or, if_false, if_true,
          ite_false, ite_true] <;>
        first
          | exact ih acc
          | (split_ifs with h1
             · exact ih _
             · exact ih _)

theorem horizontal_scan_eq : ∀ (l : List Obj) (acc : List ℚ),
    horizontal_spacing_scan l acc = horizontal_spacing_claim_scan l acc := by
  intro l
  induction l with
  | nil => intro acc; rfl
  | cons a t ih =>
    cases t with
    | nil => intro acc; rfl
    | cons b r =>
      intro acc
      simp only [horizontal_spacing_scan, horizontal_spacing_claim_scan, gt_iff_lt]
      split_ifs with h1
      · exact ih _
      · exact ih _

theorem vertical_spacing_eq (l : List Obj) :
    vertical_spacing l = vertical_spacing_claim l := by
  simp only [vertical_spacing, vertical_spacing_claim, vertical_scan_eq]

theorem horizontal_spacing_eq (l : List Obj) :
    horizontal_spacing l = horizontal_spacing_claim l := by
  simp only [horizontal_spacing, horizontal_spacing_claim, horizontal_scan_eq]

theorem unanimous_loop_const {α : Type} [DecidableEq α] (f : Obj → Option α)
    (v : α) : ∀ l : List Obj, (∀ m ∈ l, f m = some v) →
      unanimous_loop f l (some v) = some v := by
  intro l
  induction l with
  | nil => intro _; rfl
  | cons o t ih =>
    intro hall
    have ho := hall o (List.mem_cons_self o t)
    simp only [unanimous_loop]
    rw [if_neg (by simp [ho])]
    exact ih fun m hm => hall m (List.mem_cons_of_mem o hm)

theorem unanimous_loop_skip {α : Type} [DecidableEq α] (f : Obj → Option α) :
    ∀ (l1 l2 : List Obj), (∀ m ∈ l1, f m = none) →
      unanimous_loop f (l1 ++ l2) none = unanimous_loop f l2 none := by
  intro l1
  induction l1 with
  | nil => intro l2 _; rfl
  | cons o t ih =>
    intro l2 hall
    have ho := hall o (List.mem_cons_self o t)
    show unanimous_loop f (t ++ l2) (f o) = unanimous_loop f l2 none
    rw [ho]
    exact ih l2 fun m hm => hall m (List.mem_cons_of_mem o hm)

theorem unanimous_loop_if {α : Type} [DecidableEq α] (f : Obj → Option α)
    (v : α) : ∀ l : List Obj,
      unanimous_loop f l (some v)
        = if l.all fun m => f m == some v then some v else none := by
  intro l
  induction l with
  | nil => simp [unanimous_loop]
  | cons o t ih =>
    by_cases hfo : f o = some v
    · simp only [unanimous_loop, List.all_cons, hfo]
      rw [if_neg (by simp)]
      simp only [ih]
      simp
    · simp only [unanimous_loop, List.all_cons]
      rw [if_pos (by simp [hfo])]
      have hbeq : (f o == some v) = false := by
        simp [hfo]
      simp [hbeq]

theorem mode_none_of_no_repeat (values : List ℚ)
    (h : ∀ x ∈ values, values.count x ≤ 1) : mode values = none := by
  rw [mode, List.find?_eq_none]
  intro x hx
  intro hcontra
  rw [Bool.and_eq_true] at hcontra
  have h2 := of_decide_eq_true hcontra.1
  have h3 := h x hx
  omega

theorem mode_some_spec (values : List ℚ) (v : ℚ) (h : mode values = some v) :
    v ∈ values ∧ 2 ≤ values.count v ∧
      ∀ y ∈ values, y ≠ v → values.count y < values.count v := by
  have hmem := List.mem_of_find?_eq_some h
  have hp := List.find?_some h
  rw [Bool.and_eq_true] at hp
  have h2 := of_decide_eq_true hp.1
  refine ⟨hmem, h2, ?_⟩
  intro y hy hne
  have h3 := List.all_eq_true.mp hp.2 y hy
  rw [Bool.or_eq_true] at h3
  rcases h3 with h4 | h4
  · exact absurd (of_decide_eq_true h4) hne
  · exact of_decide_eq_true h4

/-- Concrete object with zero coordinates and no style information.
Field order: x, y, base, width, height, rotation, angle, font size,
bold, italic. -/
def o0 : Obj := ⟨0, 0, 0, 0, 0, none, none, none, none, none⟩

/-- Concrete object with font size 5, bold and italic. -/
def o5 : Obj := ⟨0, 0, 0, 0, 0, none, none, some 5, some true, some true⟩

/-- Concrete object with font size 2. -/
def oF2 : Obj := ⟨0, 0, 0, 0, 0, none, none, some 2, none, none⟩

/-- Concrete object with font size 4. -/
def oF4 : Obj := ⟨0, 0, 0, 0, 0, none, none, some 4, none, none⟩

/-- Concrete object at x = 10, width 1, y = 0, height 0. -/
def oC3a : Obj := ⟨10, 0, 0, 1, 0, none, none, none, none, none⟩

/-- Concrete object at x = 0, width 1, y = 10, height 5. -/
def oC3b : Obj := ⟨0, 10, 0, 1, 5, none, none, none, none, none⟩

/-- Concrete object at x = 3, y = 7, base 9, width 2, height 1. -/
def oW : Obj := ⟨3, 7, 9, 2, 1, none, none, none, none, none⟩

/-- Concrete token at x = 0 with width 10, on the line y = 0. -/
def tokC8a : Obj := ⟨0, 0, 2, 10, 1, none, none, none, none, none⟩

/-- Concrete token at x = 20 with width 10, on the line y = 0. -/
def tokC8b : Obj := ⟨20, 0, 2, 10, 1, none, none, none, none, none⟩

/-- Concrete object sharing the y of `o0` but at a different x. -/
def bC5 : Obj := ⟨5, 0, 0, 0, 0, none, none, none, none, none⟩

/-- Four concrete tokens on four different lines spaced so that every
vertical gap is 8. -/
def tV1 : Obj := ⟨0, 0, 2, 1, 1, none, none, none, none, none⟩

/-- Second token of the vertical run. -/
def tV2 : Obj := ⟨1, 10, 12, 1, 2, none, none, none, none, none⟩

/-- Third token of the vertical run. -/
def tV3 : Obj := ⟨2, 20, 22, 1, 3, none, none, none, none, none⟩

/-- Fourth token of the vertical run. -/
def tV4 : Obj := ⟨3, 30, 32, 1, 4, none, none, none, none, none⟩

theorem halign_tV12 : alignement tV1 [tV2] = ObjectAlignement.NonAligned := by
  norm_num [alignement, tV1, tV2]

theorem halign_tV23 : alignement tV2 [tV3] = ObjectAlignement.NonAligned := by
  norm_num [alignement, tV2, tV3]

theorem halign_tV34 : alignement tV3 [tV4] = ObjectAlignement.NonAligned := by
  norm_num [alignement, tV3, tV4]

theorem vs_lV4 : vertical_spacing [tV1, tV2, tV3, tV4] = [8, 8, 8] := by
  simp only [vertical_spacing, vertical_spacing_scan, halign_tV12, halign_tV23,
    halign_tV34]
  norm_num [tV1, tV2, tV3, tV4, List.getLast?, List.filter]

theorem halign_C8 : alignement tokC8a [tokC8b] = ObjectAlignement.HorizontalAligned := by
  norm_num [alignement, tokC8a, tokC8b]

theorem hs_lC8 : horizontal_spacing [tokC8a, tokC8b] = [10] := by
  simp only [horizontal_spacing, horizontal_spacing_scan, halign_C8]
  norm_num [tokC8a, tokC8b, List.getLast?, List.filter]

theorem mhs_lC8_none : mode_horizontal_spacing [tokC8a, tokC8b] = none := by
  rw [mode_horizontal_spacing, hs_lC8]
  have hr : roundHalfAway 10 = 10 := by norm_num [roundHalfAway]
  rw [show (([10] : List ℚ).map fun value => roundHalfAway value)
      = [roundHalfAway 10] from rfl, hr]
  apply mode_none_of_no_repeat
  intro x hx
  rw [List.mem_singleton.mp hx]
  simp

theorem mvs_lV4_some : mode_vertical_spacing [tV1, tV2, tV3, tV4] = some 8 := by
  rw [mode_vertical_spacing, vs_lV4]
  have hr : roundHalfAway 8 = 8 := by norm_num [roundHalfAway]
  rw [show (([8, 8, 8] : List ℚ).map fun value => roundHalfAway value)
      = [roundHalfAway 8, roundHalfAway 8, roundHalfAway 8] from rfl, hr]
  rw [mode]
  norm_num [List.find?, List.count_cons]

/-- C1: the claim says `avg_font_size()` returns the arithmetic mean of
all members' font sizes when every member has a known font size.  The
code does not: `Iterator::all` consumes the iterator of font sizes, so
the mean is computed over the empty remainder and the aggregate returns
`Some(0.0)` for the collection with font sizes 2 and 4, whose mean is 3.
The unknown-propagation half of the claim does hold (any unknown font
size yields `None`). -/
theorem avg_font_size_c1_bug :
    avg_font_size [oF2, oF4] = some 0 ∧ mean [2, 4] = 3 := by
  constructor
  · rfl
  · norm_num [mean]
    simp

/-- C2 (amended): on the empty collection every operation degrades to its
default — width 0, height 0, unknown style, empty spacing, absent mode —
but the alignment of a reference object against an empty list of others
is HorizontalAligned (the first check holds vacuously of no elements),
not NonAligned. -/
theorem empty_defaults_c2 :
    width ([] : List Obj) = 0 ∧ height ([] : List Obj) = 0 ∧
    font_size ([] : List Obj) = none ∧ bold ([] : List Obj) = none ∧
    italic ([] : List Obj) = none ∧
    (∀ R : Obj, alignement R [] = ObjectAlignement.HorizontalAligned) ∧
    vertical_spacing ([] : List Obj) = [] ∧
    horizontal_spacing ([] : List Obj) = [] ∧
    mode_vertical_spacing ([] : List Obj) = none ∧
    mode_horizontal_spacing ([] : List Obj) = none := by
  refine ⟨?_, ?_, rfl, rfl, rfl, ?_, rfl, rfl, rfl, rfl⟩
  · norm_num [width, List.insertionSort]
  · norm_num [height, List.insertionSort]
  · intro R; rfl

/-- C2 counterexample: the claim says alignment classification against an
empty set of others is NonAligned; the code returns HorizontalAligned. -/
theorem empty_alignement_c2_counterexample :
    alignement o0 [] = ObjectAlignement.HorizontalAligned ∧
    ObjectAlignement.HorizontalAligned ≠ ObjectAlignement.NonAligned :=
  ⟨rfl, by simp⟩

/-- C3 (amended): for a non-empty collection the aggregate width and
height are tight interval bounds anchored at the member-derived lower
bounds — min x for the horizontal axis and min (y - height) for the
vertical axis — not at the aggregate x()/y() (which are the first
member's coordinates): every member's horizontal extent [x, x + width]
lies within [min x, min x + width()], every member's vertical extent
[y - height, y] lies within [min (y - height), min (y - height) +
height()], and all four bounds are attained by some member. -/
theorem bounding_box_containment_c3 :
    ∀ l : List Obj, l ≠ [] →
      (∀ m ∈ l,
        minQ (l.map fun t => t.x) ≤ m.x ∧
        m.x + m.width ≤ minQ (l.map fun t => t.x) + width l ∧
        minQ (l.map fun t => t.y - t.height) ≤ m.y - m.height ∧
        m.y ≤ minQ (l.map fun t => t.y - t.height) + height l) ∧
      (∃ m ∈ l, m.x = minQ (l.map fun t => t.x)) ∧
      (∃ m ∈ l, m.x + m.width = minQ (l.map fun t => t.x) + width l) ∧
      (∃ m ∈ l, m.y - m.height = minQ (l.map fun t => t.y - t.height)) ∧
      (∃ m ∈ l, m.y = minQ (l.map fun t => t.y - t.height) + height l) := by
  intro l hne
  have hw : minQ (l.map fun t => t.x) + width l
      = maxQ (l.map fun t => t.x + t.width) := by
    rw [width_eq l hne]; ring
  have hh : minQ (l.map fun t => t.y - t.height) + height l
      = maxQ (l.map fun t => t.y) := by
    rw [height_eq l hne]; ring
  refine ⟨?_, ?_, ?_, ?_, ?_⟩
  · intro m hm
    refine ⟨minQ_le _ _ (List.mem_map_of_mem _ hm), ?_,
      minQ_le _ _ (List.mem_map_of_mem _ hm), ?_⟩
    · rw [hw]; exact le_maxQ _ _ (List.mem_map_of_mem _ hm)
    · rw [hh]; exact le_maxQ _ _ (List.mem_map_of_mem _ hm)
  · obtain ⟨m, hm, he⟩ :=
      List.mem_map.mp (minQ_mem (l.map fun t => t.x) (by simpa using hne))
    exact ⟨m, hm, he⟩
  · rw [hw]
    obtain ⟨m, hm, he⟩ :=
      List.mem_map.mp
        (maxQ_mem (l.map fun t => t.x + t.width) (by simpa using hne))
    exact ⟨m, hm, he⟩
  · obtain ⟨m, hm, he⟩ :=
      List.mem_map.mp
        (minQ_mem (l.map fun t => t.y - t.height) (by simpa using hne))
    exact ⟨m, hm, he⟩
  · rw [hh]
    obtain ⟨m, hm, he⟩ :=
      List.mem_map.mp (maxQ_mem (l.map fun t => t.y) (by simpa using hne))
    exact ⟨m, hm, he⟩

/-- C3 witness: the amended containment at the singleton collection. -/
theorem bounding_box_c3_witness :
    minQ ([oW].map fun t => t.x) ≤ oW.x ∧
    oW.x + oW.width ≤ minQ ([oW].map fun t => t.x) + width [oW] ∧
    minQ ([oW].map fun t => t.y - t.height) ≤ oW.y - oW.height ∧
    oW.y ≤ minQ ([oW].map fun t => t.y - t.height) + height [oW] :=
  (bounding_box_containment_c3 [oW] (List.cons_ne_nil _ _)).1 oW
    (List.mem_singleton.mpr rfl)

/-- C3 counterexample: the claim as stated anchors the box at the
aggregate x()/y(), the first member's coordinates.  For the two-member
collection [oC3a, oC3b] — first member at x = 10, second at x = 0 — the
second member violates m.x ≥ box.x, and on the vertical axis the second
member (y = 10, height = 5) violates m.y + m.height ≤ box.y + box.height
(box.y = 0, height() = 10). -/
theorem bounding_box_c3_counterexample :
    ¬ (∀ m ∈ [oC3a, oC3b], Tokens.x [oC3a, oC3b] ≤ m.x) ∧
    ¬ (∀ m ∈ [oC3a, oC3b],
        m.y + m.height ≤ Tokens.y [oC3a, oC3b] + height [oC3a, oC3b]) := by
  constructor
  · intro hall
    have h := hall oC3b (by simp)
    rw [show Tokens.x [oC3a, oC3b] = 10 from rfl] at h
    norm_num [oC3b] at h
  · intro hall
    have h := hall oC3b (by simp)
    have hhv : height [oC3a, oC3b] = 10 := by
      simp only [height]
      norm_num [List.insertionSort, List.orderedInsert, oC3a, oC3b,
        List.getLast?]
    rw [hhv, show Tokens.y [oC3a, oC3b] = 0 from rfl] at h
    norm_num [oC3b] at h

/-- C4 (amended): the aggregate font_size (likewise bold and italic)
returns the common value when every member shares the same known value,
and returns unknown as soon as a member disagrees with the first known
value seen — but members whose value is unknown are skipped while no
known value has been seen yet: once the first known value v appears, the
aggregate is v exactly when every later member reports exactly v
(a later unknown or different value gives none), and a collection whose
members are all unknown gives none. -/
theorem style_unanimity_c4 :
    (∀ (l : List Obj) (v : ℚ), l ≠ [] → (∀ m ∈ l, m.font_size = some v) →
        font_size l = some v) ∧
    (∀ (l : List Obj) (bv : Bool), l ≠ [] → (∀ m ∈ l, m.bold = some bv) →
        bold l = some bv) ∧
    (∀ (l : List Obj) (bv : Bool), l ≠ [] → (∀ m ∈ l, m.italic = some bv) →
        italic l = some bv) ∧
    (∀ (l1 l2 : List Obj) (o : Obj) (v : ℚ),
        (∀ m ∈ l1, m.font_size = none) → o.font_size = some v →
        font_size (l1 ++ o :: l2)
          = if l2.all fun m => m.font_size == some v then some v else none) ∧
    (∀ l : List Obj, (∀ m ∈ l, m.font_size = none) → font_size l = none) := by
  refine ⟨?_, ?_, ?_, ?_, ?_⟩
  · intro l v hne hall
    cases l with
    | nil => exact absurd rfl hne
    | cons o t =>
      show unanimous_loop (fun object => object.font_size) t o.font_size = some v
      rw [hall o (List.mem_cons_self o t)]
      exact unanimous_loop_const _ v t
        fun m hm => hall m (List.mem_cons_of_mem o hm)
  · intro l bv hne hall
    cases l with
    | nil => exact absurd rfl hne
    | cons o t =>
      show unanimous_loop (fun object => object.bold) t o.bold = some bv
      rw [hall o (List.mem_cons_self o t)]
      exact unanimous_loop_const _ bv t
        fun m hm => hall m (List.mem_cons_of_mem o hm)
  · intro l bv hne hall
    cases l with
    | nil => exact absurd rfl hne
    | cons o t =>
      show unanimous_loop (fun object => object.italic) t o.italic = some bv
      rw [hall o (List.mem_cons_self o t)]
      exact unanimous_loop_const _ bv t
        fun m hm => hall m (List.mem_cons_of_mem o hm)
  · intro l1 l2 o v hnone hov
    have h1 : font_size (l1 ++ o :: l2)
        = unanimous_loop (fun object => object.font_size) (o :: l2) none :=
      unanimous_loop_skip _ l1 (o :: l2) hnone
    rw [h1]
    have h2 : unanimous_loop (fun object => object.font_size) (o :: l2) none
        = unanimous_loop (fun object => object.font_size) l2 (some v) := by
      show unanimous_loop (fun object => object.font_size) l2 o.font_size = _
      rw [hov]
    rw [h2, unanimous_loop_if]
  · intro l hnone
    have h1 := unanimous_loop_skip (fun object => object.font_size) l [] hnone
    rw [List.append_nil] at h1
    exact h1

/-- C4 witness: the uniform cases at a singleton, the skip case for one
leading-unknown member, and the all-unknown case. -/
theorem style_unanimity_c4_witness :
    font_size [o5] = some 5 ∧ bold [o5] = some true ∧
    italic [o5] = some true ∧ font_size ([o0] ++ o5 :: []) = some 5 ∧
    font_size [o0] = none := by
  refine ⟨?_, ?_, ?_, ?_, ?_⟩
  · exact style_unanimity_c4.1 [o5] 5 (List.cons_ne_nil _ _)
      fun m hm => by rw [List.mem_singleton.mp hm]; rfl
  · exact style_unanimity_c4.2.1 [o5] true (List.cons_ne_nil _ _)
      fun m hm => by rw [List.mem_singleton.mp hm]; rfl
  · exact style_unanimity_c4.2.2.1 [o5] true (List.cons_ne_nil _ _)
      fun m hm => by rw [List.mem_singleton.mp hm]; rfl
  · exact (style_unanimity_c4.2.2.2.1 [o0] [] o5 5
      (fun m hm => by rw [List.mem_singleton.mp hm]; rfl) rfl).trans (by simp)
  · exact style_unanimity_c4.2.2.2.2 [o0]
      fun m hm => by rw [List.mem_singleton.mp hm]; rfl

/-- C4 counterexample: the claim says the aggregate returns unknown the
moment any member's value is itself unknown; but for the collection whose
first member has no style information and whose second has font size 5,
bold and italic, the aggregates return the second member's values. -/
theorem leading_unknown_c4_counterexample :
    font_size [o0, o5] = some 5 ∧ font_size [o0, o5] ≠ none ∧
    bold [o0, o5] = some true ∧ italic [o0, o5] = some true := by
  have h : font_size [o0, o5] = some 5 := rfl
  exact ⟨h, by rw [h]; simp, rfl, rfl⟩

/-- C5: the alignement of a reference object against a non-empty list of
others agrees with the claim-side classifier that tests the categories in
the fixed order HorizontalAligned, HorizontalCenterAligned,
VerticalLeftAligned, VerticalCenterAligned, VerticalRightAligned,
Aligned, NonAligned and returns the first category whose condition holds
of all members under exact equality; and a pair with identical y but
different x is classified HorizontalAligned. -/
theorem alignement_priority_c5 :
    (∀ (R : Obj) (others : List Obj), others ≠ [] →
        alignement R others = alignementClaim R others) ∧
    (∀ R b : Obj, b.y = R.y → b.x ≠ R.x →
        alignement R [b] = ObjectAlignement.HorizontalAligned) := by
  constructor
  · intro R others _
    rw [alignement, alignementClaim]
    simp only [firstMatch]
    rw [all_center_y_comm, all_center_x_comm, all_right_comm, all_xy_comm]
  · intro R b hy _
    simp [alignement, hy]

/-- C5 witness: reference `o0` against `[bC5]` (same y, different x). -/
theorem alignement_priority_c5_witness :
    alignement o0 [bC5] = alignementClaim o0 [bC5] ∧
    alignement o0 [bC5] = ObjectAlignement.HorizontalAligned :=
  ⟨alignement_priority_c5.1 o0 [bC5] (List.cons_ne_nil _ _),
    alignement_priority_c5.2 o0 bC5 rfl (by norm_num [bC5, o0])⟩

/-- C6: for a non-empty collection the aggregate width is
max (x + width) - min x over the members, the aggregate height is
max y - min (y - height) over the members, and the aggregate rotation
and angle are none whatever the members are. -/
theorem aggregate_shape_c6 :
    ∀ l : List Obj, l ≠ [] →
      width l = maxQ (l.map fun t => t.x + t.width)
          - minQ (l.map fun t => t.x) ∧
      height l = maxQ (l.map fun t => t.y)
          - minQ (l.map fun t => t.y - t.height) ∧
      rotation l = none ∧ angle l = none :=
  fun l h => ⟨width_eq l h, height_eq l h, rfl, rfl⟩

/-- C6 witness: the shape equations at a concrete two-member collection. -/
theorem aggregate_shape_c6_witness :
    width [oC3a, oC3b] = maxQ ([oC3a, oC3b].map fun t => t.x + t.width)
        - minQ ([oC3a, oC3b].map fun t => t.x) ∧
    height [oC3a, oC3b] = maxQ ([oC3a, oC3b].map fun t => t.y)
        - minQ ([oC3a, oC3b].map fun t => t.y - t.height) ∧
    rotation [oC3a, oC3b] = none ∧ angle [oC3a, oC3b] = none :=
  aggregate_shape_c6 [oC3a, oC3b] (List.cons_ne_nil _ _)

/-- C7: vertical_spacing agrees with the claim-side scan — consecutive
pairs in order, no entry for a pair classified HorizontalAligned or
HorizontalCenterAligned, otherwise next.y - current.base appended exactly
when current.base is positive and exceeds the last appended value, with
all values not strictly positive dropped afterwards — every returned
value is strictly positive, and two consecutive tokens with identical y
contribute nothing regardless of their base values. -/
theorem vertical_spacing_c7 :
    (∀ l : List Obj, vertical_spacing l = vertical_spacing_claim l) ∧
    (∀ (l : List Obj) (v : ℚ), v ∈ vertical_spacing l → 0 < v) ∧
    (∀ a b : Obj, a.y = b.y → vertical_spacing [a, b] = []) := by
  refine ⟨vertical_spacing_eq, ?_, ?_⟩
  · intro l v hv
    rw [vertical_spacing] at hv
    exact of_decide_eq_true (List.mem_filter.mp hv).2
  · intro a b hy
    have halign : alignement a [b] = ObjectAlignement.HorizontalAligned := by
      simp [alignement, hy]
    simp [vertical_spacing, vertical_spacing_scan, halign]

/-- C7 witness: the equality at the four-token vertical run, positivity of
a concrete returned value, and the same-line skip for the two tokens on
the line y = 0. -/
theorem vertical_spacing_c7_witness :
    vertical_spacing [tV1, tV2, tV3, tV4]
        = vertical_spacing_claim [tV1, tV2, tV3, tV4] ∧
    (0 : ℚ) < 8 ∧ vertical_spacing [tokC8a, tokC8b] = [] := by
  refine ⟨vertical_spacing_c7.1 _, ?_, vertical_spacing_c7.2.2 tokC8a tokC8b rfl⟩
  exact vertical_spacing_c7.2.1 [tV1, tV2, tV3, tV4] 8 (by rw [vs_lV4]; simp)

/-- C8 (amended): horizontal_spacing agrees with the claim-side scan —
for each consecutive pair classified HorizontalAligned or
HorizontalCenterAligned whose value spacing = current.x + current.width
is positive and exceeds the last recorded value, the entry
next.x - spacing is recorded, and non-positive entries are dropped — and
for the two tokens at x = 0, width 10 and x = 20, width 10 on the same
line, horizontal_spacing() is [10.0] while mode_horizontal_spacing() is
none, since the single rounded value 10 does not repeat. -/
theorem horizontal_spacing_c8 :
    (∀ l : List Obj, horizontal_spacing l = horizontal_spacing_claim l) ∧
    horizontal_spacing [tokC8a, tokC8b] = [10] ∧
    mode_horizontal_spacing [tokC8a, tokC8b] = none :=
  ⟨horizontal_spacing_eq, hs_lC8, mhs_lC8_none⟩

/-- C8 counterexample: the claim says mode_horizontal_spacing() = 10 for
the two tokens at x = 0, width 10 and x = 20, width 10 on the same line;
the single spacing value 10 does not repeat, so the mode is none. -/
theorem mode_single_c8_counterexample :
    horizontal_spacing [tokC8a, tokC8b] = [10] ∧
    mode_horizontal_spacing [tokC8a, tokC8b] ≠ some 10 :=
  ⟨hs_lC8, by rw [mhs_lC8_none]; simp⟩

/-- C9: the two mode operations round every spacing value to the nearest
integer (half away from zero) and return the single most frequent rounded
value; they return none when the spacing list is empty and none when no
rounded value repeats, and a returned value is a member of the rounded
list occurring at least twice and strictly more often than any other
value. -/
theorem mode_spacing_c9 : ∀ tokens : List Obj,
    mode_vertical_spacing tokens
        = mode ((vertical_spacing tokens).map fun value => roundHalfAway value) ∧
    mode_horizontal_spacing tokens
        = mode ((horizontal_spacing tokens).map fun value => roundHalfAway value) ∧
    (vertical_spacing tokens = [] → mode_vertical_spacing tokens = none) ∧
    (horizontal_spacing tokens = [] → mode_horizontal_spacing tokens = none) ∧
    ((∀ x ∈ (vertical_spacing tokens).map fun value => roundHalfAway value,
        ((vertical_spacing tokens).map fun value => roundHalfAway value).count x ≤ 1) →
      mode_vertical_spacing tokens = none) ∧
    ((∀ x ∈ (horizontal_spacing tokens).map fun value => roundHalfAway value,
        ((horizontal_spacing tokens).map fun value => roundHalfAway value).count x ≤ 1) →
      mode_horizontal_spacing tokens = none) ∧
    (∀ v, mode_vertical_spacing tokens = some v →
      v ∈ (vertical_spacing tokens).map (fun value => roundHalfAway value) ∧
      2 ≤ ((vertical_spacing tokens).map fun value => roundHalfAway value).count v ∧
      ∀ y ∈ (vertical_spacing tokens).map fun value => roundHalfAway value,
        y ≠ v →
          ((vertical_spacing tokens).map fun value => roundHalfAway value).count y
            < ((vertical_spacing tokens).map fun value => roundHalfAway value).count v) ∧
    (∀ v, mode_horizontal_spacing tokens = some v →
      v ∈ (horizontal_spacing tokens).map (fun value => roundHalfAway value) ∧
      2 ≤ ((horizontal_spacing tokens).map fun value => roundHalfAway value).count v ∧
      ∀ y ∈ (horizontal_spacing tokens).map fun value => roundHalfAway value,
        y ≠ v →
          ((horizontal_spacing tokens).map fun value => roundHalfAway value).count y
            < ((horizontal_spacing tokens).map fun value => roundHalfAway value).count v) := by
  intro tokens
  refine ⟨rfl, rfl, ?_, ?_, ?_, ?_, ?_, ?_⟩
  · intro h
    rw [mode_vertical_spacing, h]
    rfl
  · intro h
    rw [mode_horizontal_spacing, h]
    rfl
  · intro h
    rw [mode_vertical_spacing]
    exact mode_none_of_no_repeat _ h
  · intro h
    rw [mode_horizontal_spacing]
    exact mode_none_of_no_repeat _ h
  · intro v hv
    rw [mode_vertical_spacing] at hv
    exact mode_some_spec _ v hv
  · intro v hv
    rw [mode_horizontal_spacing] at hv
    exact mode_some_spec _ v hv

/-- C9 witness: the empty-spacing cases at the empty collection, and the
returned-mode characterization at the four-token vertical run, whose mode
is 8. -/
theorem mode_spacing_c9_witness :
    mode_vertical_spacing ([] : List Obj) = none ∧
    mode_horizontal_spacing ([] : List Obj) = none ∧
    (8 : ℚ) ∈
      (vertical_spacing [tV1, tV2, tV3, tV4]).map (fun value => roundHalfAway value) ∧
    2 ≤ ((vertical_spacing [tV1, tV2, tV3, tV4]).map
        fun value => roundHalfAway value).count 8 :=
  ⟨(mode_spacing_c9 []).2.2.1 rfl, (mode_spacing_c9 []).2.2.2.1 rfl,
    ((mode_spacing_c9 [tV1, tV2, tV3, tV4]).2.2.2.2.2.2.1 8 mvs_lV4_some).1,
    ((mode_spacing_c9 [tV1, tV2, tV3, tV4]).2.2.2.2.2.2.1 8 mvs_lV4_some).2.1⟩

/-- C10: the Alinged (exact x-and-y) branch of alignement is unreachable:
for every reference object and every list of others, empty or not, the
result is never Alinged, because a list all of whose members match both
coordinates already passes the first (same y) check, and the empty list
passes it vacuously. -/
theorem alinged_unreachable_c10 :
    ∀ (R : Obj) (others : List Obj),
      alignement R others ≠ ObjectAlignement.Alinged := by
  intro R others
  rw [alignement]
  split_ifs with h1 h2 h3 h4 h5 h6
  · simp
  · simp
  · simp
  · simp
  · simp
  · exfalso
    apply h1
    rw [List.all_eq_true] at h6 ⊢
    intro e he
    have h7 := h6 e he
    rw [Bool.and_eq_true] at h7
    exact h7.1
  · simp

/-- C10 witness: the unreachability instantiated at a concrete input. -/
theorem alinged_unreachable_c10_witness :
    alignement o0 [] ≠ ObjectAlignement.Alinged :=
  alinged_unreachable_c10 o0 []

end PdfShape
